import Mathlib

/-!
Verification of the duet-kit patch-application engine (src/duet.ts of the
duet-kit repository, the `createDuet` factory), as a shallow embedding.

Modelling notes, derived from the source:

Values are the JSON fragment the engine manipulates: strings, integers,
booleans, null, and objects with ordered string keys (JS objects preserve
insertion order for string keys).  Arrays, floating point numbers and
string index properties are outside the modelled fragment.

Aliasing.  `applyPatch` starts from a shallow copy
`currentData = spread of state.data`, so each top-level field value of the
working copy is initially the very same object as the live snapshot's value.
Moreover `schema.getDefaults()` returns, for each field, a reference to the
one default object stored in the field definition, and the store is created
with `data: initialData` where `initialData = schema.getDefaults()`, so at
construction (and again after `reset()`) the live value of a field is the
same object as the schema's default for that field.  The only in-place
mutation the engine performs is the nested `remove` branch, which runs
`delete` inside the object reachable from `currentData[root]`.  Every other
write rebinds a root slot to a fresh object: Zod's `safeParse` returns a
freshly built object for object schemas, and the nested replace/add branch
deep-clones via a JSON round trip before mutating.  Sharing therefore only
ever exists at whole-root-field granularity, between the live slot, the
default slot, and the working slot, which the model tracks with an
`aliasDef` flag on live slots and an `Origin` tag on working slots, and a
`propagate` step that applies a nested-remove mutation to every slot holding
the same object.

Faults.  The engine runs in strict mode.  Reading a property of `undefined`
or `null` throws, `delete` on an `undefined`/`null` base throws, the `in`
operator on a primitive throws, and assigning a property to a primitive
throws.  Property reads on number/boolean/string primitives yield
`undefined`.  Such a TypeError propagates out of `applyPatch` uncaught
(modelled as the `thrown` outcome); `applyJSON` wraps the engine call in its
try/catch and reports the caught message with the `JSON parse error:` prefix.

Validators model the Zod schemas the repository uses (primitive leaves with
min/max/min-length/enum constraints and flat object schemas of such leaves):
object validation requires every declared key, strips undeclared keys, and
returns a freshly built object in declaration order, as `z.object` does.
The text of Zod's first issue message is abstracted by a constant, as are
the host's TypeError messages; no claim depends on their exact wording.

`JSON.parse` is host-runtime code; `applyJSON` is therefore modelled over
the parse outcome: a thrown parse error, an array of operations, a non-array
object with an array `patch` property, the JSON literal `null` (on which the
shape test `parsed.patch` itself throws, inside the catch), or any other
shape.
-/

namespace Duet

/-- JSON-like values: the fragment of JS values the engine manipulates. -/
inductive PVal where
  | str (s : String)
  | num (n : Int)
  | bool (b : Bool)
  | null
  | obj (fields : List (String × PVal))
deriving Repr

/-- Lookup in an ordered association list (JS object property read). -/
def lookupKey : List (String × α) → String → Option α
  | [], _ => none
  | (k1, v1) :: rest, k => if k1 = k then some v1 else lookupKey rest k

/-- Property write on an ordered association list: an existing key keeps its
position, a new key is appended, as JS assignment does. -/
def setKey : List (String × α) → String → α → List (String × α)
  | [], k, v => [(k, v)]
  | (k1, v1) :: rest, k, v =>
      if k1 = k then (k, v) :: rest else (k1, v1) :: setKey rest k v

/-- Property deletion on an ordered association list (JS delete). -/
def delKey : List (String × α) → String → List (String × α)
  | [], _ => []
  | (k1, v1) :: rest, k =>
      if k1 = k then rest else (k1, v1) :: delKey rest k

/-- Primitive leaf validators: the Zod leaf schemas used by the repository
(z.string().min, z.number().min/max, z.boolean, z.enum). -/
inductive VLeaf where
  | lstr (minLen : Nat)
  | lnum (lo hi : Option Int)
  | lbool
  | lenum (opts : List String)
deriving Repr

/-- Field validators: a primitive leaf or a flat z.object of primitive leaves. -/
inductive VSchema where
  | vstr (minLen : Nat)
  | vnum (lo hi : Option Int)
  | vbool
  | venum (opts : List String)
  | vobj (shape : List (String × VLeaf))
deriving Repr

/-- Validation of a primitive leaf value, following Zod safeParse on the
corresponding leaf schema; on success the accepted value is returned. -/
def validateLeaf : VLeaf → PVal → Option PVal
  | VLeaf.lstr minLen, PVal.str s =>
      if minLen ≤ s.length then some (PVal.str s) else none
  | VLeaf.lnum lo hi, PVal.num n =>
      if (match lo with | some l => decide (l ≤ n) | none => true) &&
         (match hi with | some h => decide (n ≤ h) | none => true) then
        some (PVal.num n)
      else none
  | VLeaf.lbool, PVal.bool b => some (PVal.bool b)
  | VLeaf.lenum opts, PVal.str s =>
      if s ∈ opts then some (PVal.str s) else none
  | _, _ => none

/-- Validation of an object body against a flat shape, following z.object:
every declared key is required, undeclared keys are stripped, and the parsed
object is rebuilt in declaration order. -/
def validateShape : List (String × VLeaf) → List (String × PVal) →
    Option (List (String × PVal))
  | [], _ => some []
  | (k, leaf) :: rest, fs =>
      match lookupKey fs k with
      | none => none
      | some v =>
          match validateLeaf leaf v, validateShape rest fs with
          | some v2, some tail => some ((k, v2) :: tail)
          | _, _ => none

/-- Validation of a field value, following Zod safeParse: on success the
parsed value is returned (a freshly built object for object schemas). -/
def validate : VSchema → PVal → Option PVal
  | VSchema.vstr minLen, v => validateLeaf (VLeaf.lstr minLen) v
  | VSchema.vnum lo hi, v => validateLeaf (VLeaf.lnum lo hi) v
  | VSchema.vbool, v => validateLeaf VLeaf.lbool v
  | VSchema.venum opts, v => validateLeaf (VLeaf.lenum opts) v
  | VSchema.vobj shape, PVal.obj fs => (validateShape shape fs).map PVal.obj
  | VSchema.vobj _, _ => none

/-- Field definition: validator, UI label, and the default value object
(`field(schema, label, defaultValue)` in the source). -/
structure FieldDef where
  validator : VSchema
  label : String
  default : PVal
deriving Repr

/-- Schema: the named, ordered field registry (`DuetSchema`). -/
structure Schema where
  name : String
  fields : List (String × FieldDef)
deriving Repr

/-- Registry lookup, the source's `rootField in schema.fields` test plus
`schema.fields[rootField]` access. -/
def Schema.lookupField (sch : Schema) (k : String) : Option FieldDef :=
  lookupKey sch.fields k

/-- Operation kinds: the three JSON Patch kinds the engine handles, plus any
other op string (reachable through applyJSON, which casts without checking). -/
inductive OpKind where
  | replace
  | add
  | remove
  | other (tag : String)
deriving Repr

/-- One JSON Patch operation as the engine receives it. -/
structure Op where
  op : OpKind
  path : String
  value : PVal
deriving Repr

/-- Source tag of a patch application. -/
inductive Source where
  | user
  | llm
  | system
deriving Repr

/-- Result of applying edits: `success: true, applied` or
`success: false, error`. -/
inductive EditResult where
  | success (applied : Nat)
  | failure (error : String)
deriving Repr

/-- Audit trail entry pushed on `patchHistory`. -/
structure HistoryEntry where
  id : String
  timestamp : Nat
  patch : List Op
  source : Source
  result : EditResult
deriving Repr

/-- One live field slot: its current value, and whether that value is still
the very object stored as the schema default for the field (true at
construction and after reset, false once a validated commit rebinds it). -/
structure FieldSlot where
  val : PVal
  aliasDef : Bool
deriving Repr

/-- The whole mutable state owned by one createDuet instance: the store's
data, the current contents of the schema's default objects (mutable, since
nested removes can reach them through aliases), and the audit log with its
counter. -/
structure Machine where
  data : List (String × FieldSlot)
  defaults : List (String × PVal)
  history : List HistoryEntry
  historyId : Nat
deriving Repr

/-- Construction: `initialData = schema.getDefaults()` stores, per field, the
same object as the schema default, so every slot starts default-aliased. -/
def mkMachine (sch : Schema) : Machine :=
  ⟨sch.fields.map (fun kv => (kv.1, ⟨kv.2.default, true⟩)),
   sch.fields.map (fun kv => (kv.1, kv.2.default)),
   [], 0⟩

/-- The store's `set(field, value)`: validate, on failure report false and
leave state untouched, on success commit the parsed value.  `none` models
the TypeError `schema.validate` raises on an unregistered field name (it
reads `.schema` of `undefined`), which typed callers never reach. -/
def setField (sch : Schema) (m : Machine) (k : String) (v : PVal) :
    Option (Machine × Bool) :=
  match sch.lookupField k with
  | none => none
  | some fd =>
      match validate fd.validator v with
      | none => some (m, false)
      | some v2 => some ({ m with data := setKey m.data k ⟨v2, false⟩ }, true)

/-- The validation pass of `setMany`: iterate the updates in order, skip keys
that are not registered, validate registered ones, and stop at the first
failure; on success return the accumulated validated object. -/
def setManyGo (sch : Schema) : List (String × PVal) → List (String × PVal) →
    Option (List (String × PVal))
  | [], acc => some acc
  | (k, v) :: rest, acc =>
      match sch.lookupField k with
      | none => setManyGo sch rest acc
      | some fd =>
          match validate fd.validator v with
          | none => none
          | some v2 => setManyGo sch rest (setKey acc k v2)

/-- The commit spread `data: (spread of state.data, then of validated)`:
every data key in order, overwritten by its validated value when present
(rebound to a fresh parse, hence no longer default-aliased), then any
validated keys not already in data appended. -/
def mergeSpread (data : List (String × FieldSlot))
    (validated : List (String × PVal)) : List (String × FieldSlot) :=
  (data.map (fun kv =>
      match lookupKey validated kv.1 with
      | some v => (kv.1, (⟨v, false⟩ : FieldSlot))
      | none => kv))
  ++ (validated.filter (fun kv => (lookupKey data kv.1).isNone)).map
      (fun kv => (kv.1, (⟨kv.2, false⟩ : FieldSlot)))

/-- The store's `setMany(updates)`: validate all registered keys first, then
commit all of them at once, or commit nothing and report false. -/
def setMany (sch : Schema) (m : Machine) (updates : List (String × PVal)) :
    Machine × Bool :=
  match setManyGo sch updates [] with
  | none => (m, false)
  | some validated => ({ m with data := mergeSpread m.data validated }, true)

/-- The store's `reset()`: commit `schema.getDefaults()`, i.e. rebind every
field to the (current contents of the) schema default object, restoring the
default alias. -/
def reset (m : Machine) : Machine :=
  { m with data := m.defaults.map (fun kv => (kv.1, ⟨kv.2, true⟩)) }

/-- The bridge's `clearHistory()`: empty the log and reset the counter. -/
def clearHistory (m : Machine) : Machine :=
  { m with history := [], historyId := 0 }

/-- Append one audit entry with id `String(increment of historyId)`. -/
def pushHist (m : Machine) (patch : List Op) (source : Source) (ts : Nat)
    (r : EditResult) : Machine :=
  { m with
    history := m.history ++ [⟨toString (m.historyId + 1), ts, patch, source, r⟩],
    historyId := m.historyId + 1 }

/-- Path splitting: `op.path.replace` of one leading slash, then split on
slash (JS split with a one-character separator; splitting the empty string
yields one empty segment). -/
def splitAux : List Char → List Char → List String
  | [], acc => [String.mk acc.reverse]
  | c :: rest, acc =>
      if c = '/' then String.mk acc.reverse :: splitAux rest []
      else splitAux rest (c :: acc)

/-- Parse a JSON Pointer style path into segments. -/
def splitPath (p : String) : List String :=
  match p.toList with
  | '/' :: rest => splitAux rest []
  | l => splitAux l []

/-- Pure observation: read a value along a path of object keys. -/
def getPath : PVal → List String → Option PVal
  | v, [] => some v
  | PVal.obj fs, k :: rest =>
      match lookupKey fs k with
      | some c => getPath c rest
      | none => none
  | _, _ :: _ => none

/-- The nested remove navigation (walk `target = target[part i]` for the
intermediate segments, then `delete target[last]`), as a pure rebuild of the
root value; `none` is the strict-mode TypeError.  Reading a property of an
absent key yields undefined and the following read or delete throws; delete
on a boxed number/boolean/string with an absent property is a no-op (string
index properties are outside the modelled fragment); delete with an
undefined or null base throws. -/
def delRec : PVal → List String → Option PVal
  | PVal.obj fs, [k] => some (PVal.obj (delKey fs k))
  | PVal.num n, [_] => some (PVal.num n)
  | PVal.bool b, [_] => some (PVal.bool b)
  | PVal.str s, [_] => some (PVal.str s)
  | PVal.obj fs, k :: rest =>
      match lookupKey fs k with
      | some c => (delRec c rest).map (fun c2 => PVal.obj (setKey fs k c2))
      | none => none
  | _, _ => none

/-- The nested replace/add walk on the JSON-round-trip clone: create a fresh
empty object for each absent intermediate segment (`in` test), then assign
the final segment; `none` is the strict-mode TypeError (`in` on a primitive,
or property assignment on a primitive). -/
def setRec : PVal → List String → PVal → Option PVal
  | PVal.obj fs, [k], v => some (PVal.obj (setKey fs k v))
  | PVal.obj fs, k :: rest, v =>
      match setRec ((lookupKey fs k).getD (PVal.obj [])) rest v with
      | some c2 => some (PVal.obj (setKey fs k c2))
      | none => none
  | _, _, _ => none

/-- Identity tag of a working slot: still the live snapshot's object, the
schema default object (after a root-level remove), or a fresh object with no
aliases (after a validated write). -/
inductive Origin where
  | liveAlias
  | defaultAlias
  | fresh
deriving Repr

/-- One working slot of `currentData`. -/
structure WorkSlot where
  val : PVal
  origin : Origin
deriving Repr

/-- The shallow working copy `currentData`. -/
abbrev Work := List (String × WorkSlot)

/-- Apply an in-place nested-remove mutation to every slot aliased to the
mutated working object: the live slot when the working slot still is the
live object, the default slot when the reached object is (also) the schema
default. -/
def propagate (m : Machine) (root : String) (o : Origin) (v : PVal) : Machine :=
  match o with
  | Origin.fresh => m
  | Origin.liveAlias =>
      let aliasD := ((lookupKey m.data root).map FieldSlot.aliasDef).getD false
      let m1 := { m with data := setKey m.data root ⟨v, aliasD⟩ }
      if aliasD then { m1 with defaults := setKey m1.defaults root v } else m1
  | Origin.defaultAlias =>
      let aliasD := ((lookupKey m.data root).map FieldSlot.aliasDef).getD false
      let m1 := { m with defaults := setKey m.defaults root v }
      if aliasD then { m1 with data := setKey m1.data root ⟨v, true⟩ } else m1

/-- Outcome of one loop iteration of `applyPatch`. -/
inductive StepRes where
  | cont (work : Work) (m : Machine)
  | exit (m : Machine) (r : EditResult)
  | fault (m : Machine)
deriving Repr

/-- Stand-in for the message of Zod's first issue
(`result.error.errors[0]?.message`); no property proved here depends on its
text. -/
def zodIssueMessage : String := "Invalid input"

/-- The nested branch of the `remove` case: navigate inside the working
value and delete the final key in place, propagating the mutation to every
aliased slot, or throw. -/
def removeNested (work : Work) (m : Machine) (root : String) (p : List String) :
    StepRes :=
  let ws := (lookupKey work root).getD ⟨PVal.null, Origin.fresh⟩
  match delRec ws.val p with
  | none => StepRes.fault m
  | some v2 =>
      StepRes.cont (setKey work root ⟨v2, ws.origin⟩)
        (propagate m root ws.origin v2)

/-- The nested branch of the `replace`/`add` case: deep-clone the working
value (a JSON round trip, so the pure rebuild below), walk and create
intermediate segments, assign the final segment, then validate the entire
resulting root value; a validation failure aborts the batch, a successful
parse becomes the new (fresh) working value, and a walk over a primitive
throws. -/
def writeNested (fd : FieldDef) (work : Work) (m : Machine) (root : String)
    (p : List String) (path : String) (value : PVal) : StepRes :=
  let ws := (lookupKey work root).getD ⟨PVal.null, Origin.fresh⟩
  match setRec ws.val p value with
  | none => StepRes.fault m
  | some nv =>
      match validate fd.validator nv with
      | none =>
          StepRes.exit m (EditResult.failure
            ("Invalid value for " ++ path ++ ": " ++ zodIssueMessage))
      | some v2 => StepRes.cont (setKey work root ⟨v2, Origin.fresh⟩) m

/-- One iteration of the `for (const op of patch)` loop of `applyPatch`:
resolve the root field, dispatch on the op kind, and either continue with an
updated working copy, return a failure for the whole batch, or throw. -/
def applyOp (sch : Schema) (work : Work) (m : Machine) (op : Op) : StepRes :=
  match splitPath op.path with
  | [] => StepRes.fault m
  | root :: p =>
      match sch.lookupField root with
      | none => StepRes.exit m (EditResult.failure ("Unknown field: " ++ root))
      | some fd =>
          match op.op with
          | OpKind.remove =>
              match p with
              | [] =>
                  StepRes.cont
                    (setKey work root
                      ⟨(lookupKey m.defaults root).getD PVal.null,
                       Origin.defaultAlias⟩) m
              | _ :: _ => removeNested work m root p
          | OpKind.replace | OpKind.add =>
              match p with
              | [] =>
                  match validate fd.validator op.value with
                  | none =>
                      StepRes.exit m (EditResult.failure
                        ("Invalid value for " ++ root ++ ": " ++ zodIssueMessage))
                  | some v2 =>
                      StepRes.cont (setKey work root ⟨v2, Origin.fresh⟩) m
              | _ :: _ => writeNested fd work m root p op.path op.value
          | OpKind.other _ => StepRes.cont work m

/-- The whole operation loop, short-circuiting on failure or fault. -/
def applyOps (sch : Schema) : Work → Machine → List Op → StepRes
  | work, m, [] => StepRes.cont work m
  | work, m, op :: rest =>
      match applyOp sch work m op with
      | StepRes.cont w2 m2 => applyOps sch w2 m2 rest
      | r => r

/-- Outcome of an `applyPatch` call: a returned EditResult, or an uncaught
TypeError escaping the engine. -/
inductive POut where
  | returned (r : EditResult)
  | thrown
deriving Repr

/-- The bridge's `applyPatch(patch, source)`: shallow-copy the live data into
the working copy, run the loop, and on completion commit the whole working
copy through the store's `setMany`; every returning path appends exactly one
audit entry, a thrown TypeError appends none. -/
def applyPatch (sch : Schema) (m : Machine) (patch : List Op) (source : Source)
    (ts : Nat) : Machine × POut :=
  match applyOps sch (m.data.map (fun kv => (kv.1, ⟨kv.2.val, Origin.liveAlias⟩)))
      m patch with
  | StepRes.fault m2 => (m2, POut.thrown)
  | StepRes.exit m2 r => (pushHist m2 patch source ts r, POut.returned r)
  | StepRes.cont w m2 =>
      match setMany sch m2 (w.map (fun kv => (kv.1, kv.2.val))) with
      | (m3, true) =>
          (pushHist m3 patch source ts (EditResult.success patch.length),
           POut.returned (EditResult.success patch.length))
      | (m3, false) =>
          (pushHist m3 patch source ts
            (EditResult.failure "Failed to commit changes to store"),
           POut.returned (EditResult.failure "Failed to commit changes to store"))

/-- Outcome of `JSON.parse` plus the shape tests of `applyJSON`, with the
parser treated as host-runtime code: a thrown parse error with its message, a
JSON array of operations, a non-null object with an array `patch` property,
the JSON literal null (whose `parsed.patch` read itself throws), or any other
successfully parsed shape. -/
inductive Parsed where
  | parseError (msg : String)
  | arr (ops : List Op)
  | objPatch (ops : List Op)
  | nullVal
  | badShape
deriving Repr

/-- Stand-in for the message of the TypeError thrown by reading `.patch` of
null. -/
def nullPatchFaultMessage : String :=
  "Cannot read properties of null (reading 'patch')"

/-- Stand-in for the message of a TypeError thrown inside the engine and
caught by applyJSON's try/catch. -/
def caughtFaultMessage : String := "Cannot convert undefined to object"

/-- The bridge's `applyJSON(json, source)`: dispatch on the parse outcome;
both array shapes call `applyPatch`; the catch block turns any throw,
whether from parsing, from the shape test on null, or from inside the
engine, into a failure with the `JSON parse error:` prefix. -/
def applyJSON (sch : Schema) (m : Machine) (p : Parsed) (source : Source)
    (ts : Nat) : Machine × EditResult :=
  match p with
  | Parsed.parseError msg => (m, EditResult.failure ("JSON parse error: " ++ msg))
  | Parsed.arr ops =>
      match applyPatch sch m ops source ts with
      | (m2, POut.returned r) => (m2, r)
      | (m2, POut.thrown) =>
          (m2, EditResult.failure ("JSON parse error: " ++ caughtFaultMessage))
  | Parsed.objPatch ops =>
      match applyPatch sch m ops source ts with
      | (m2, POut.returned r) => (m2, r)
      | (m2, POut.thrown) =>
          (m2, EditResult.failure ("JSON parse error: " ++ caughtFaultMessage))
  | Parsed.nullVal =>
      (m, EditResult.failure ("JSON parse error: " ++ nullPatchFaultMessage))
  | Parsed.badShape =>
      (m, EditResult.failure
        "Expected JSON Patch array or \x7b patch: [...] \x7d format")

/-- A concrete instance of the repository's CRM demo shape: a `contact`
object field of three strings, and a `days` number field. -/
def crmSchema : Schema :=
  ⟨"CRMLead",
   [("contact",
     ⟨VSchema.vobj [("name", VLeaf.lstr 0), ("email", VLeaf.lstr 0),
                    ("phone", VLeaf.lstr 0)],
      "Contact",
      PVal.obj [("name", PVal.str ""), ("email", PVal.str ""),
                ("phone", PVal.str "")]⟩),
    ("days", ⟨VSchema.vnum none none, "Days", PVal.num 7⟩)]⟩

/-- The machine carried by a step outcome. -/
def StepRes.mach : StepRes → Machine
  | StepRes.cont _ m => m
  | StepRes.exit m _ => m
  | StepRes.fault m => m

/-- The audit-log shape invariant: the recorded ids are the decimal strings
for 1 .. historyId, oldest first. -/
def HistIds (m : Machine) : Prop :=
  m.history.map HistoryEntry.id
    = (List.range m.historyId).map (fun i => toString (i + 1))

/-- Machines reachable from construction through the public operations of
one createDuet instance. -/
inductive Reachable (sch : Schema) : Machine → Prop where
  | init : Reachable sch (mkMachine sch)
  | patch (m : Machine) (ops : List Op) (src : Source) (ts : Nat) :
      Reachable sch m → Reachable sch (applyPatch sch m ops src ts).1
  | json (m : Machine) (p : Parsed) (src : Source) (ts : Nat) :
      Reachable sch m → Reachable sch (applyJSON sch m p src ts).1
  | setf (m : Machine) (k : String) (v : PVal) (m2 : Machine) (b : Bool) :
      Reachable sch m → setField sch m k v = some (m2, b) → Reachable sch m2
  | setm (m : Machine) (upd : List (String × PVal)) :
      Reachable sch m → Reachable sch (setMany sch m upd).1
  | res (m : Machine) : Reachable sch m → Reachable sch (reset m)
  | clear (m : Machine) : Reachable sch m → Reachable sch (clearHistory m)

/-- Paths along which the nested replace/add walk stays on objects: starting
from an object, each segment is either absent (the walk creates a fresh
empty object there) or holds another object on which the rest of the walk is
again of this kind. -/
inductive SetOk : PVal → List String → Prop where
  | last (fs : List (String × PVal)) (k : String) : SetOk (PVal.obj fs) [k]
  | present (fs : List (String × PVal)) (k : String) (c : PVal)
      (rest : List String) (hne : rest ≠ [])
      (hc : lookupKey fs k = some c) (hrec : SetOk c rest) :
      SetOk (PVal.obj fs) (k :: rest)
  | absent (fs : List (String × PVal)) (k : String) (rest : List String)
      (hne : rest ≠ []) (hc : lookupKey fs k = none)
      (hrec : SetOk (PVal.obj []) rest) :
      SetOk (PVal.obj fs) (k :: rest)

/-- Paths that are equal for some prefix of segments and then part on two
different keys (so neither is a prefix of the other). -/
inductive Diverge : List String → List String → Prop where
  | head (a b : String) (pr qr : List String) (h : a ≠ b) :
      Diverge (a :: pr) (b :: qr)
  | cons (a : String) (pr qr : List String) (h : Diverge pr qr) :
      Diverge (a :: pr) (a :: qr)

/-- C1.  Batch atomicity fails on the code: in the batch
`remove /contact/name` then `replace /bogus 1`, the second operation fails
with an unknown-field error, yet the live snapshot is no longer deep-equal
to its pre-call state — the nested remove ran `delete` inside the object
shared between `currentData` and the live `state.data` (the working copy is
only a shallow spread), so `contact` has lost its `name` key even though the
call reported failure and committed nothing. -/
theorem failed_batch_mutates_live_state :
    (applyPatch crmSchema (mkMachine crmSchema)
        [⟨OpKind.remove, "/contact/name", PVal.null⟩,
         ⟨OpKind.replace, "/bogus", PVal.num 1⟩] Source.llm 0).2
      = POut.returned (EditResult.failure "Unknown field: bogus")
    ∧ lookupKey (applyPatch crmSchema (mkMachine crmSchema)
        [⟨OpKind.remove, "/contact/name", PVal.null⟩,
         ⟨OpKind.replace, "/bogus", PVal.num 1⟩] Source.llm 0).1.data "contact"
      = some ⟨PVal.obj [("email", PVal.str ""), ("phone", PVal.str "")], true⟩
    ∧ lookupKey (mkMachine crmSchema).data "contact"
      = some ⟨PVal.obj [("name", PVal.str ""), ("email", PVal.str ""),
                        ("phone", PVal.str "")], true⟩ :=
  ⟨rfl, rfl, rfl⟩

/-- C2.  The engine is not total: `applyPatch` on
`replace /days/x` — a nested path whose root field holds a number — throws a
TypeError (strict-mode property assignment on a primitive) instead of
returning an EditResult, while `applyJSON` on the same batch catches the
throw in its try/catch and returns a failure mislabelled with the
`JSON parse error:` prefix. -/
theorem applyPatch_faults_applyJSON_catches :
    applyPatch crmSchema (mkMachine crmSchema)
        [⟨OpKind.replace, "/days/x", PVal.num 1⟩] Source.llm 0
      = (mkMachine crmSchema, POut.thrown)
    ∧ applyJSON crmSchema (mkMachine crmSchema)
        (Parsed.arr [⟨OpKind.replace, "/days/x", PVal.num 1⟩]) Source.llm 0
      = (mkMachine crmSchema,
         EditResult.failure ("JSON parse error: " ++ caughtFaultMessage)) :=
  ⟨rfl, rfl⟩

/-- C3.  A nested remove whose intermediate segment is absent is not a
tolerant no-op: `remove /contact/missing/x` reads `contact.missing`
(undefined) and then `delete undefined[...]` throws a TypeError out of
`applyPatch`, leaving no EditResult. -/
theorem nested_remove_missing_intermediate_faults :
    applyPatch crmSchema (mkMachine crmSchema)
        [⟨OpKind.remove, "/contact/missing/x", PVal.null⟩] Source.llm 0
      = (mkMachine crmSchema, POut.thrown) :=
  rfl

/-- C5.  `reset()` does not restore the construction-time values after a
nested remove: the initial snapshot's `contact` value is the very object
stored as the schema default, so `remove /contact/name` deletes `name` from
the schema default itself (the commit then fails, since the mutated object no
longer validates), and the subsequent `reset()` installs the mutated default
— `name` is gone, unlike the value held immediately after construction. -/
theorem reset_after_nested_remove_differs :
    (reset (applyPatch crmSchema (mkMachine crmSchema)
        [⟨OpKind.remove, "/contact/name", PVal.null⟩] Source.llm 0).1).data
      = [("contact", ⟨PVal.obj [("email", PVal.str ""), ("phone", PVal.str "")],
                      true⟩),
         ("days", ⟨PVal.num 7, true⟩)]
    ∧ (mkMachine crmSchema).data
      = [("contact", ⟨PVal.obj [("name", PVal.str ""), ("email", PVal.str ""),
                                ("phone", PVal.str "")], true⟩),
         ("days", ⟨PVal.num 7, true⟩)]
    ∧ (applyPatch crmSchema (mkMachine crmSchema)
        [⟨OpKind.remove, "/contact/name", PVal.null⟩] Source.llm 0).2
      = POut.returned (EditResult.failure "Failed to commit changes to store") :=
  ⟨rfl, rfl, rfl⟩

/-- C4 counterexample.  A key that is not a registered field name does not
make `setMany` fail: the loop guard `key in schema.fields` silently skips
it, nothing is validated for it, and the call commits (vacuously) and
reports true, contradicting the claim that an unknown key yields failure. -/
theorem setMany_unknown_key_accepted :
    setMany crmSchema (mkMachine crmSchema) [("bogus", PVal.num 5)]
      = (mkMachine crmSchema, true) :=
  rfl

/-- If the updates list contains a registered key whose value fails
validation, the validation pass of setMany returns none, whatever has been
accumulated so far. -/
lemma setManyGo_invalid (sch : Schema) (k : String) (v : PVal) (fd : FieldDef)
    (hreg : sch.lookupField k = some fd)
    (hval : validate fd.validator v = none) :
    ∀ (updates : List (String × PVal)) (acc : List (String × PVal)),
      (k, v) ∈ updates → setManyGo sch updates acc = none := by
  intro updates
  induction updates with
  | nil => intro acc h; cases h
  | cons hd tl ih =>
      intro acc hmem
      rcases List.mem_cons.mp hmem with heq | htl
      · rw [← heq]
        simp [setManyGo, hreg, hval]
      · obtain ⟨k1, v1⟩ := hd
        simp only [setManyGo]
        split
        · exact ih _ htl
        · split
          · rfl
          · exact ih _ htl

/-- If every registered key in the updates list validates, the validation
pass of setMany succeeds. -/
lemma setManyGo_valid (sch : Schema) :
    ∀ (updates : List (String × PVal)) (acc : List (String × PVal)),
      (∀ k v fd, (k, v) ∈ updates → sch.lookupField k = some fd →
        validate fd.validator v ≠ none) →
      ∃ out, setManyGo sch updates acc = some out := by
  intro updates
  induction updates with
  | nil => intro acc _; exact ⟨acc, rfl⟩
  | cons hd tl ih =>
      intro acc hall
      obtain ⟨k1, v1⟩ := hd
      simp only [setManyGo]
      split
      · exact ih _ (fun k v fd hm => hall k v fd (List.mem_cons_of_mem _ hm))
      · rename_i fd1 hl
        split
        · rename_i hv
          exact absurd hv (hall k1 v1 fd1 (List.mem_cons_self _ _) hl)
        · exact ih _ (fun k v fd hm => hall k v fd (List.mem_cons_of_mem _ hm))

/-- C4 (amended).  setMany is all-or-nothing over the registered keys of its
argument: keys that are not registered field names are silently skipped
(they are neither validated nor committed and cause no failure); if any
registered key's value fails validation, no field is updated and the call
returns false; if every registered key validates, the call reports true. -/
theorem setMany_all_or_nothing_registered :
    (∀ (sch : Schema) (m : Machine) (updates : List (String × PVal))
        (k : String) (v : PVal) (fd : FieldDef),
        (k, v) ∈ updates → sch.lookupField k = some fd →
        validate fd.validator v = none →
        setMany sch m updates = (m, false))
    ∧ (∀ (sch : Schema) (m : Machine) (updates : List (String × PVal)),
        (∀ k v fd, (k, v) ∈ updates → sch.lookupField k = some fd →
          validate fd.validator v ≠ none) →
        (setMany sch m updates).2 = true) := by
  constructor
  · intro sch m updates k v fd hmem hreg hval
    unfold setMany
    rw [setManyGo_invalid sch k v fd hreg hval updates [] hmem]
  · intro sch m updates hall
    unfold setMany
    obtain ⟨out, hout⟩ := setManyGo_valid sch updates [] hall
    rw [hout]

/-- C4 witness: a registered key (`days`) with a value its validator rejects
(a string where a number is required) makes the whole call fail with no
field updated. -/
theorem setMany_all_or_nothing_registered_apply :
    setMany crmSchema (mkMachine crmSchema) [("days", PVal.str "x")]
      = (mkMachine crmSchema, false) :=
  setMany_all_or_nothing_registered.1 crmSchema (mkMachine crmSchema)
    [("days", PVal.str "x")] "days" (PVal.str "x")
    ⟨VSchema.vnum none none, "Days", PVal.num 7⟩
    (List.mem_singleton.mpr rfl) rfl rfl

/-- C8 counterexample.  The input string "null" is valid JSON and is neither
an array nor an object with an array patch property, yet applyJSON does not
return the distinct expected-format message: the shape test `parsed.patch`
throws on null, the catch block runs, and the failure carries the
`JSON parse error:` prefix instead. -/
theorem applyJSON_null_literal_parse_error :
    applyJSON crmSchema (mkMachine crmSchema) Parsed.nullVal Source.llm 0
      = (mkMachine crmSchema,
         EditResult.failure ("JSON parse error: " ++ nullPatchFaultMessage))
    ∧ ("JSON parse error: " ++ nullPatchFaultMessage)
      ≠ "Expected JSON Patch array or \x7b patch: [...] \x7d format" :=
  ⟨rfl, by decide⟩

/-- C8 (amended).  For every input whose JSON parse fails, applyJSON returns
a failure prefixed `JSON parse error:`; for every valid-JSON input that is
neither an array, nor the literal null, nor an object with an array patch
property, it returns the distinct expected-format failure; the literal null
instead trips the shape test itself and is reported as a caught
`JSON parse error:` failure.  In all three cases the machine — store state
and audit log — is returned unchanged and the engine is not invoked. -/
theorem applyJSON_malformed_input_results :
    (∀ (sch : Schema) (m : Machine) (msg : String) (src : Source) (ts : Nat),
        applyJSON sch m (Parsed.parseError msg) src ts
          = (m, EditResult.failure ("JSON parse error: " ++ msg)))
    ∧ (∀ (sch : Schema) (m : Machine) (src : Source) (ts : Nat),
        applyJSON sch m Parsed.badShape src ts
          = (m, EditResult.failure
              "Expected JSON Patch array or \x7b patch: [...] \x7d format"))
    ∧ (∀ (sch : Schema) (m : Machine) (src : Source) (ts : Nat),
        applyJSON sch m Parsed.nullVal src ts
          = (m, EditResult.failure
              ("JSON parse error: " ++ nullPatchFaultMessage))) :=
  ⟨fun _ _ _ _ _ => rfl, fun _ _ _ _ => rfl, fun _ _ _ _ => rfl⟩

/-- C9.  Input-format equivalence: for every operation list and source tag,
applyJSON on the bare-array parse shape and on the wrapped patch-property
shape dispatches to the same applyPatch call, so the returned result and the
final machine (store state and audit log) coincide. -/
theorem applyJSON_wrapped_bare_equivalent (sch : Schema) (m : Machine)
    (ops : List Op) (src : Source) (ts : Nat) :
    applyJSON sch m (Parsed.arr ops) src ts
      = applyJSON sch m (Parsed.objPatch ops) src ts :=
  rfl


/-- Nested-remove propagation never touches the audit log. -/
lemma propagate_history (m : Machine) (root : String) (o : Origin) (v : PVal) :
    (propagate m root o v).history = m.history := by
  cases o <;> dsimp only [propagate] <;> try rfl
  all_goals split <;> rfl

/-- Nested-remove propagation never touches the audit counter. -/
lemma propagate_historyId (m : Machine) (root : String) (o : Origin) (v : PVal) :
    (propagate m root o v).historyId = m.historyId := by
  cases o <;> dsimp only [propagate] <;> try rfl
  all_goals split <;> rfl

/-- The nested remove branch never touches the audit log or counter. -/
lemma removeNested_hist (work : Work) (m : Machine) (root : String)
    (p : List String) :
    (removeNested work m root p).mach.history = m.history ∧
    (removeNested work m root p).mach.historyId = m.historyId := by
  dsimp only [removeNested]
  split <;> simp [StepRes.mach, propagate_history, propagate_historyId]

/-- The nested replace/add branch never touches the audit log or counter. -/
lemma writeNested_hist (fd : FieldDef) (work : Work) (m : Machine)
    (root : String) (p : List String) (path : String) (value : PVal) :
    (writeNested fd work m root p path value).mach.history = m.history ∧
    (writeNested fd work m root p path value).mach.historyId = m.historyId := by
  dsimp only [writeNested]
  split
  · exact ⟨rfl, rfl⟩
  · split <;> exact ⟨rfl, rfl⟩

/-- One loop iteration never touches the audit log or counter. -/
lemma applyOp_hist (sch : Schema) (work : Work) (m : Machine) (op : Op) :
    (applyOp sch work m op).mach.history = m.history ∧
    (applyOp sch work m op).mach.historyId = m.historyId := by
  unfold applyOp
  repeat' split
  all_goals
    first
      | exact ⟨rfl, rfl⟩
      | apply removeNested_hist
      | apply writeNested_hist

/-- The whole loop never touches the audit log or counter. -/
lemma applyOps_hist (sch : Schema) :
    ∀ (ops : List Op) (work : Work) (m : Machine),
      (applyOps sch work m ops).mach.history = m.history ∧
      (applyOps sch work m ops).mach.historyId = m.historyId := by
  intro ops
  induction ops with
  | nil => intro work m; exact ⟨rfl, rfl⟩
  | cons op rest ih =>
      intro work m
      simp only [applyOps]
      have hm := applyOp_hist sch work m op
      cases h : applyOp sch work m op with
      | cont w2 m2 =>
          rw [h] at hm
          have h2 := ih w2 m2
          exact ⟨h2.1.trans hm.1, h2.2.trans hm.2⟩
      | exit m2 r =>
          rw [h] at hm
          exact hm
      | fault m2 =>
          rw [h] at hm
          exact hm

/-- The store commit never touches the audit log or counter. -/
lemma setMany_hist (sch : Schema) (m : Machine) (upd : List (String × PVal)) :
    (setMany sch m upd).1.history = m.history ∧
    (setMany sch m upd).1.historyId = m.historyId := by
  unfold setMany
  split <;> exact ⟨rfl, rfl⟩

/-- Every applyPatch call that returns an EditResult appends exactly one
audit entry, recording the original batch, the source tag, the timestamp and
the returned result, under the next counter value. -/
lemma applyPatch_returned (sch : Schema) (m : Machine) (patch : List Op)
    (src : Source) (ts : Nat) (m2 : Machine) (r : EditResult)
    (h : applyPatch sch m patch src ts = (m2, POut.returned r)) :
    m2.history
      = m.history ++ [⟨toString (m.historyId + 1), ts, patch, src, r⟩]
    ∧ m2.historyId = m.historyId + 1 := by
  unfold applyPatch at h
  have hops := applyOps_hist sch patch
    (m.data.map (fun kv => (kv.1, ⟨kv.2.val, Origin.liveAlias⟩))) m
  cases hop : applyOps sch
      (m.data.map (fun kv => (kv.1, ⟨kv.2.val, Origin.liveAlias⟩))) m patch with
  | fault m3 =>
      rw [hop] at h
      exact absurd (congrArg Prod.snd h) (by simp)
  | exit m3 r3 =>
      rw [hop] at h
      rw [hop] at hops
      simp only [StepRes.mach] at hops
      have h1 : pushHist m3 patch src ts r3 = m2 := congrArg Prod.fst h
      have h2 : POut.returned r3 = POut.returned r := congrArg Prod.snd h
      injection h2 with h2
      subst h2
      subst h1
      exact ⟨by simp [pushHist, hops.1, hops.2], by simp [pushHist, hops.2]⟩
  | cont w m3 =>
      rw [hop] at h
      rw [hop] at hops
      simp only [StepRes.mach] at hops
      dsimp only at h
      have hsm := setMany_hist sch m3 (w.map (fun kv => (kv.1, kv.2.val)))
      cases hcommit : setMany sch m3 (w.map (fun kv => (kv.1, kv.2.val))) with
      | mk m4 b =>
          rw [hcommit] at h
          rw [hcommit] at hsm
          simp only at hsm
          cases b
          · have h1 : pushHist m4 patch src ts
                (EditResult.failure "Failed to commit changes to store") = m2 :=
              congrArg Prod.fst h
            have h2 : POut.returned
                (EditResult.failure "Failed to commit changes to store")
                = POut.returned r := congrArg Prod.snd h
            injection h2 with h2
            subst h2
            subst h1
            exact ⟨by simp [pushHist, hsm.1, hsm.2, hops.1, hops.2],
                   by simp [pushHist, hsm.2, hops.2]⟩
          · have h1 : pushHist m4 patch src ts
                (EditResult.success patch.length) = m2 :=
              congrArg Prod.fst h
            have h2 : POut.returned (EditResult.success patch.length)
                = POut.returned r := congrArg Prod.snd h
            injection h2 with h2
            subst h2
            subst h1
            exact ⟨by simp [pushHist, hsm.1, hsm.2, hops.1, hops.2],
                   by simp [pushHist, hsm.2, hops.2]⟩

/-- An applyPatch call that throws appends no audit entry and leaves the
counter unchanged. -/
lemma applyPatch_thrown (sch : Schema) (m : Machine) (patch : List Op)
    (src : Source) (ts : Nat) (m2 : Machine)
    (h : applyPatch sch m patch src ts = (m2, POut.thrown)) :
    m2.history = m.history ∧ m2.historyId = m.historyId := by
  unfold applyPatch at h
  have hops := applyOps_hist sch patch
    (m.data.map (fun kv => (kv.1, ⟨kv.2.val, Origin.liveAlias⟩))) m
  cases hop : applyOps sch
      (m.data.map (fun kv => (kv.1, ⟨kv.2.val, Origin.liveAlias⟩))) m patch with
  | fault m3 =>
      rw [hop] at h
      rw [hop] at hops
      simp only [StepRes.mach] at hops
      have h1 := congrArg Prod.fst h
      simp only at h1
      rw [← h1]
      exact hops
  | exit m3 r3 =>
      rw [hop] at h
      exact absurd (congrArg Prod.snd h) (by simp)
  | cont w m3 =>
      rw [hop] at h
      dsimp only at h
      cases hcommit : setMany sch m3 (w.map (fun kv => (kv.1, kv.2.val))) with
      | mk m4 b =>
          rw [hcommit] at h
          cases b
          · exact absurd (congrArg Prod.snd h) (by simp)
          · exact absurd (congrArg Prod.snd h) (by simp)



/-- Appending an audit entry preserves the id invariant. -/
lemma histIds_push (m : Machine) (patch : List Op) (src : Source) (ts : Nat)
    (r : EditResult) (h : HistIds m) : HistIds (pushHist m patch src ts r) := by
  unfold HistIds at h
  unfold HistIds pushHist
  simp [List.range_succ, h]

/-- applyPatch preserves the id invariant, whether it returns or throws. -/
lemma histIds_applyPatch (sch : Schema) (m : Machine) (ops : List Op)
    (src : Source) (ts : Nat) (h : HistIds m) :
    HistIds (applyPatch sch m ops src ts).1 := by
  cases hout : applyPatch sch m ops src ts with
  | mk m2 out =>
      cases out with
      | returned r =>
          obtain ⟨h1, h2⟩ := applyPatch_returned sch m ops src ts m2 r hout
          unfold HistIds at h
          unfold HistIds
          rw [h1, h2]
          simp [List.range_succ, h]
      | thrown =>
          obtain ⟨h1, h2⟩ := applyPatch_thrown sch m ops src ts m2 hout
          unfold HistIds at h
          unfold HistIds
          rw [h1, h2, h]

/-- applyJSON preserves the id invariant. -/
lemma histIds_applyJSON (sch : Schema) (m : Machine) (p : Parsed)
    (src : Source) (ts : Nat) (h : HistIds m) :
    HistIds (applyJSON sch m p src ts).1 := by
  cases p with
  | parseError msg => exact h
  | badShape => exact h
  | nullVal => exact h
  | arr ops =>
      have hp2 := histIds_applyPatch sch m ops src ts h
      dsimp only [applyJSON]
      cases hp : applyPatch sch m ops src ts with
      | mk m2 out =>
          rw [hp] at hp2
          cases out <;> exact hp2
  | objPatch ops =>
      have hp2 := histIds_applyPatch sch m ops src ts h
      dsimp only [applyJSON]
      cases hp : applyPatch sch m ops src ts with
      | mk m2 out =>
          rw [hp] at hp2
          cases out <;> exact hp2

/-- setField preserves the id invariant. -/
lemma histIds_setField (sch : Schema) (m : Machine) (k : String) (v : PVal)
    (m2 : Machine) (b : Bool) (he : setField sch m k v = some (m2, b))
    (h : HistIds m) : HistIds m2 := by
  unfold setField at he
  split at he
  · exact absurd he (by simp)
  · split at he
    · injection he with he2
      injection he2 with hm hb
      rw [← hm]
      exact h
    · injection he with he2
      injection he2 with hm hb
      rw [← hm]
      exact h

/-- setMany preserves the id invariant. -/
lemma histIds_setMany (sch : Schema) (m : Machine)
    (upd : List (String × PVal)) (h : HistIds m) :
    HistIds (setMany sch m upd).1 := by
  have hs := setMany_hist sch m upd
  unfold HistIds at h
  unfold HistIds
  rw [hs.1, hs.2, h]

/-- Every reachable machine satisfies the id invariant: history length equals
the counter and the ids are "1", "2", ... in call order. -/
lemma reachable_histIds (sch : Schema) (m : Machine) (h : Reachable sch m) :
    HistIds m := by
  induction h with
  | init => simp [HistIds, mkMachine]
  | patch m ops src ts hr ih => exact histIds_applyPatch sch m ops src ts ih
  | json m p src ts hr ih => exact histIds_applyJSON sch m p src ts ih
  | setf m k v m2 b hr he ih => exact histIds_setField sch m k v m2 b he ih
  | setm m upd hr ih => exact histIds_setMany sch m upd ih
  | res m hr ih => exact ih
  | clear m hr ih => simp [HistIds, clearHistory]

/-- C7 counterexample.  An applyPatch call that throws (nested remove through
an absent intermediate segment) appends no history entry at all: after one
such call the history still has length 0, not 1. -/
theorem thrown_call_skips_audit :
    (applyPatch crmSchema (mkMachine crmSchema)
        [⟨OpKind.remove, "/contact/x/y", PVal.null⟩] Source.llm 5).1.history = []
    ∧ (applyPatch crmSchema (mkMachine crmSchema)
        [⟨OpKind.remove, "/contact/x/y", PVal.null⟩] Source.llm 5).2
      = POut.thrown :=
  ⟨rfl, rfl⟩

/-- C7 (amended).  Every applyPatch call that returns an EditResult appends
exactly one history entry capturing the original batch, the source tag and
the final result, under id `String(historyId + 1)`; a call that throws
appends nothing and leaves the counter unchanged; on every machine reachable
through the public operations the history ids are exactly the decimal
strings "1", "2", ... up to the counter, in call order (hence strictly
increasing); clearHistory empties the log and resets the counter to 0, so
the next entry's id is again "1". -/
theorem audit_log_accounting :
    (∀ (sch : Schema) (m : Machine) (patch : List Op) (src : Source) (ts : Nat)
        (m2 : Machine) (r : EditResult),
        applyPatch sch m patch src ts = (m2, POut.returned r) →
        m2.history
          = m.history ++ [⟨toString (m.historyId + 1), ts, patch, src, r⟩]
        ∧ m2.historyId = m.historyId + 1)
    ∧ (∀ (sch : Schema) (m : Machine) (patch : List Op) (src : Source)
        (ts : Nat) (m2 : Machine),
        applyPatch sch m patch src ts = (m2, POut.thrown) →
        m2.history = m.history ∧ m2.historyId = m.historyId)
    ∧ (∀ (sch : Schema) (m : Machine), Reachable sch m →
        m.history.map HistoryEntry.id
          = (List.range m.historyId).map (fun i => toString (i + 1)))
    ∧ (∀ m : Machine,
        (clearHistory m).history = [] ∧ (clearHistory m).historyId = 0) :=
  ⟨fun sch m patch src ts m2 r h => applyPatch_returned sch m patch src ts m2 r h,
   fun sch m patch src ts m2 h => applyPatch_thrown sch m patch src ts m2 h,
   fun sch m h => reachable_histIds sch m h,
   fun _ => ⟨rfl, rfl⟩⟩

/-- C7 witness: a concrete successful call on the demo schema records one
entry with id "1" holding the batch, the source and the success result. -/
theorem audit_log_accounting_apply :
    ((applyPatch crmSchema (mkMachine crmSchema)
        [⟨OpKind.replace, "/days", PVal.num 3⟩] Source.user 7).1).history
      = (mkMachine crmSchema).history
        ++ [⟨toString ((mkMachine crmSchema).historyId + 1), 7,
             [⟨OpKind.replace, "/days", PVal.num 3⟩], Source.user,
             EditResult.success 1⟩] :=
  (audit_log_accounting.1 crmSchema (mkMachine crmSchema)
    [⟨OpKind.replace, "/days", PVal.num 3⟩] Source.user 7
    (applyPatch crmSchema (mkMachine crmSchema)
      [⟨OpKind.replace, "/days", PVal.num 3⟩] Source.user 7).1
    (EditResult.success 1) rfl).1

/-- splitAux always yields at least one segment. -/
lemma splitAux_ne_nil (l : List Char) : ∀ acc, splitAux l acc ≠ [] := by
  induction l with
  | nil => intro acc; simp [splitAux]
  | cons c rest ih =>
      intro acc
      simp only [splitAux]
      split
      · simp
      · exact ih _

/-- Path splitting always yields at least one segment (so a root field name
always exists, possibly empty). -/
lemma splitPath_ne_nil (p : String) : splitPath p ≠ [] := by
  unfold splitPath
  split <;> apply splitAux_ne_nil

/-- The loop distributes over batch concatenation. -/
lemma applyOps_append (sch : Schema) (xs ys : List Op) :
    ∀ (work : Work) (m : Machine),
      applyOps sch work m (xs ++ ys)
        = match applyOps sch work m xs with
          | StepRes.cont w2 m2 => applyOps sch w2 m2 ys
          | r => r := by
  induction xs with
  | nil => intro work m; rfl
  | cons op rest ih =>
      intro work m
      simp only [List.cons_append, applyOps]
      cases applyOp sch work m op with
      | cont w2 m2 => exact ih w2 m2
      | exit m2 r => rfl
      | fault m2 => rfl

/-- An operation of an unhandled kind whose root field is registered falls
through the loop body with no effect at all. -/
lemma applyOp_other_skip (sch : Schema) (work : Work) (m : Machine)
    (tag path : String) (val : PVal) (fd : FieldDef)
    (hreg : sch.lookupField ((splitPath path).headD "") = some fd) :
    applyOp sch work m ⟨OpKind.other tag, path, val⟩ = StepRes.cont work m := by
  cases hsp : splitPath path with
  | nil => exact absurd hsp (splitPath_ne_nil path)
  | cons root p =>
      rw [hsp] at hreg
      unfold applyOp
      simp only [hsp, List.headD] at hreg ⊢
      simp [hreg]

/-- The nested remove branch never produces a batch-level failure result. -/
lemma removeNested_no_exit (work : Work) (m : Machine) (root : String)
    (p : List String) (m2 : Machine) (r : EditResult) :
    removeNested work m root p ≠ StepRes.exit m2 r := by
  dsimp only [removeNested]
  split <;> simp

/-- The nested replace/add branch exits only with a failure result. -/
lemma writeNested_exit_failure (fd : FieldDef) (work : Work) (m : Machine)
    (root : String) (p : List String) (path : String) (value : PVal)
    (m2 : Machine) (r : EditResult)
    (h : writeNested fd work m root p path value = StepRes.exit m2 r) :
    ∃ e, r = EditResult.failure e := by
  dsimp only [writeNested] at h
  split at h
  · cases h
  · split at h
    · injection h with h1 h2
      exact ⟨_, h2.symm⟩
    · cases h

/-- A loop iteration exits only with a failure result. -/
lemma applyOp_exit_failure (sch : Schema) (work : Work) (m : Machine)
    (op : Op) (m2 : Machine) (r : EditResult)
    (h : applyOp sch work m op = StepRes.exit m2 r) :
    ∃ e, r = EditResult.failure e := by
  unfold applyOp at h
  repeat' split at h
  all_goals
    first
      | exact absurd h (removeNested_no_exit _ _ _ _ _ _)
      | exact writeNested_exit_failure _ _ _ _ _ _ _ _ _ h
      | (cases h <;> exact ⟨_, rfl⟩)

/-- The whole loop exits only with a failure result. -/
lemma applyOps_exit_failure (sch : Schema) :
    ∀ (ops : List Op) (work : Work) (m : Machine) (m2 : Machine)
      (r : EditResult),
      applyOps sch work m ops = StepRes.exit m2 r →
      ∃ e, r = EditResult.failure e := by
  intro ops
  induction ops with
  | nil => intro work m m2 r h; cases h
  | cons op rest ih =>
      intro work m m2 r h
      simp only [applyOps] at h
      cases hop : applyOp sch work m op with
      | cont w2 m3 =>
          rw [hop] at h
          exact ih w2 m3 m2 r h
      | exit m3 r3 =>
          rw [hop] at h
          dsimp only at h
          injection h with h1 h2
          subst h2
          exact applyOp_exit_failure sch work m op m3 r3 hop
      | fault m3 =>
          rw [hop] at h
          cases h

/-- C10.  An operation whose op is none of replace/add/remove but whose root
path segment names a registered field is silently skipped: inserting such an
operation anywhere in a batch leaves the final store data and defaults
unchanged and turns a successful result `applied = n` into `applied = n + 1`
(a success always reports the full batch length, skipped operations
included), while failures and throws are unchanged. -/
theorem unknown_op_skipped_but_counted :
    (∀ (sch : Schema) (m : Machine) (ops : List Op) (src : Source)
        (ts n : Nat),
        (applyPatch sch m ops src ts).2
          = POut.returned (EditResult.success n) →
        n = ops.length)
    ∧ (∀ (sch : Schema) (m : Machine) (pre post : List Op) (tag path : String)
        (val : PVal) (src : Source) (ts : Nat) (fd : FieldDef),
        sch.lookupField ((splitPath path).headD "") = some fd →
        ((applyPatch sch m (pre ++ (⟨OpKind.other tag, path, val⟩ : Op) :: post)
            src ts).1.data
          = (applyPatch sch m (pre ++ post) src ts).1.data)
        ∧ ((applyPatch sch m (pre ++ (⟨OpKind.other tag, path, val⟩ : Op) :: post)
            src ts).1.defaults
          = (applyPatch sch m (pre ++ post) src ts).1.defaults)
        ∧ (∀ e, (applyPatch sch m (pre ++ post) src ts).2
              = POut.returned (EditResult.failure e) →
            (applyPatch sch m (pre ++ (⟨OpKind.other tag, path, val⟩ : Op) :: post)
                src ts).2
              = POut.returned (EditResult.failure e))
        ∧ ((applyPatch sch m (pre ++ post) src ts).2 = POut.thrown →
            (applyPatch sch m (pre ++ (⟨OpKind.other tag, path, val⟩ : Op) :: post)
                src ts).2 = POut.thrown)
        ∧ (∀ n, (applyPatch sch m (pre ++ post) src ts).2
              = POut.returned (EditResult.success n) →
            (applyPatch sch m (pre ++ (⟨OpKind.other tag, path, val⟩ : Op) :: post)
                src ts).2
              = POut.returned (EditResult.success (n + 1)))) := by
  constructor
  · intro sch m ops src ts n h
    unfold applyPatch at h
    cases hop : applyOps sch
        (m.data.map (fun kv => (kv.1, ⟨kv.2.val, Origin.liveAlias⟩))) m ops with
    | fault m3 =>
        rw [hop] at h
        dsimp only at h
        cases h
    | exit m3 r3 =>
        rw [hop] at h
        dsimp only at h
        injection h with h2
        obtain ⟨e, he⟩ := applyOps_exit_failure sch ops _ m m3 r3 hop
        rw [he] at h2
        cases h2
    | cont w m3 =>
        rw [hop] at h
        dsimp only at h
        cases hcommit : setMany sch m3 (w.map (fun kv => (kv.1, kv.2.val))) with
        | mk m4 b =>
            rw [hcommit] at h
            cases b <;> dsimp only at h
            · cases h
            · injection h with h2
              injection h2 with h3
              exact h3.symm
  · intro sch m pre post tag path val src ts fd hreg
    have hkey : applyOps sch
        (m.data.map (fun kv => (kv.1, ⟨kv.2.val, Origin.liveAlias⟩))) m
        (pre ++ (⟨OpKind.other tag, path, val⟩ : Op) :: post)
      = applyOps sch
          (m.data.map (fun kv => (kv.1, ⟨kv.2.val, Origin.liveAlias⟩))) m
          (pre ++ post) := by
      rw [applyOps_append, applyOps_append]
      cases applyOps sch
          (m.data.map (fun kv => (kv.1, ⟨kv.2.val, Origin.liveAlias⟩))) m pre with
      | cont w2 m2 =>
          dsimp only
          simp only [applyOps, applyOp_other_skip sch w2 m2 tag path val fd hreg]
      | exit m2 r => rfl
      | fault m2 => rfl
    unfold applyPatch
    rw [hkey]
    cases hB : applyOps sch
        (m.data.map (fun kv => (kv.1, ⟨kv.2.val, Origin.liveAlias⟩))) m
        (pre ++ post) with
    | fault m3 =>
        refine ⟨rfl, rfl, ?_, ?_, ?_⟩
        · intro e h; cases h
        · intro h; rfl
        · intro n h; cases h
    | exit m3 r3 =>
        obtain ⟨e0, he0⟩ := applyOps_exit_failure sch (pre ++ post) _ m m3 r3 hB
        refine ⟨rfl, rfl, ?_, ?_, ?_⟩
        · intro e h; exact h
        · intro h; cases h
        · intro n h
          injection h with h2
          rw [he0] at h2
          cases h2
    | cont w m3 =>
        dsimp only
        cases hC : setMany sch m3 (w.map (fun kv => (kv.1, kv.2.val))) with
        | mk m4 b =>
            cases b <;> dsimp only
            · refine ⟨rfl, rfl, ?_, ?_, ?_⟩
              · intro e h; exact h
              · intro h; cases h
              · intro n h
                injection h with h2
                cases h2
            · refine ⟨rfl, rfl, ?_, ?_, ?_⟩
              · intro e h
                injection h with h2
                cases h2
              · intro h; cases h
              · intro n h
                injection h with h2
                injection h2 with h3
                have hlen : (pre ++ (⟨OpKind.other tag, path, val⟩ : Op) :: post).length
                    = (pre ++ post).length + 1 := by
                  simp [List.length_append]
                  omega
                rw [hlen, h3]

/-- C10 witness: on the demo schema, a one-element batch holding only the
unhandled op "move" on the registered field days succeeds with applied = 1
even though nothing was done. -/
theorem unknown_op_skipped_but_counted_apply :
    (applyPatch crmSchema (mkMachine crmSchema)
        [⟨OpKind.other "move", "/days", PVal.null⟩] Source.llm 0).2
      = POut.returned (EditResult.success 1) :=
  ((unknown_op_skipped_but_counted.2 crmSchema (mkMachine crmSchema) [] []
      "move" "/days" PVal.null Source.llm 0
      ⟨VSchema.vnum none none, "Days", PVal.num 7⟩ rfl).2.2.2.2) 0 rfl

/-- After a property write, reading the written key yields the new value. -/
lemma lookupKey_setKey_self (fs : List (String × α)) (k : String) (v : α) :
    lookupKey (setKey fs k v) k = some v := by
  induction fs with
  | nil => simp [setKey, lookupKey]
  | cons hd tl ih =>
      obtain ⟨k1, v1⟩ := hd
      by_cases h : k1 = k <;> simp [setKey, lookupKey, h, ih]

/-- After a property write, reading any other key is unchanged. -/
lemma lookupKey_setKey_ne (fs : List (String × α)) (k k2 : String) (v : α)
    (h : k ≠ k2) : lookupKey (setKey fs k v) k2 = lookupKey fs k2 := by
  induction fs with
  | nil => simp [setKey, lookupKey, h]
  | cons hd tl ih =>
      obtain ⟨k1, v1⟩ := hd
      by_cases h1 : k1 = k
      · subst h1
        simp [setKey, lookupKey, h]
      · by_cases h2 : k1 = k2 <;> simp [setKey, lookupKey, h1, h2, ih, Ne.symm h]


/-- From an empty object every nonempty walk is of the creating kind. -/
lemma setOk_empty : ∀ (p : List String), p ≠ [] → SetOk (PVal.obj []) p := by
  intro p
  induction p with
  | nil => intro h; exact absurd rfl h
  | cons k rest ih =>
      intro _
      cases rest with
      | nil => exact SetOk.last [] k
      | cons a b =>
          exact SetOk.absent [] k (a :: b) (by simp) rfl (ih (by simp))


/-- The nested write walk, on a path it can complete: it succeeds, reading
the written path back yields the assigned value, and every path diverging
from the written one reads back exactly as before (sibling keys at every
level are preserved). -/
lemma setRec_ok : ∀ (v : PVal) (p : List String), SetOk v p →
    ∀ (val : PVal), ∃ w, setRec v p val = some w
      ∧ getPath w p = some val
      ∧ ∀ q, Diverge p q → getPath w q = getPath v q := by
  intro v p h
  induction h with
  | last fs k =>
      intro val
      refine ⟨PVal.obj (setKey fs k val), rfl, ?_, ?_⟩
      · simp [getPath, lookupKey_setKey_self]
      · intro q hq
        cases hq with
        | head a b pr qr hne =>
            simp only [getPath]
            rw [lookupKey_setKey_ne fs k b val hne]
        | cons a pr qr hd => cases hd
  | present fs k c rest hne hc hrec ih =>
      intro val
      obtain ⟨w2, hset, hget, hdiv⟩ := ih val
      have hab : ∃ a b, rest = a :: b := by
        cases rest with
        | nil => exact absurd rfl hne
        | cons a b => exact ⟨a, b, rfl⟩
      obtain ⟨a, b, hab⟩ := hab
      refine ⟨PVal.obj (setKey fs k w2), ?_, ?_, ?_⟩
      · subst hab
        simp only [setRec, hc, Option.getD]
        rw [hset]
      · simp only [getPath, lookupKey_setKey_self]
        exact hget
      · intro q hq
        cases hq with
        | head a2 b2 pr qr hne2 =>
            simp only [getPath]
            rw [lookupKey_setKey_ne fs k b2 w2 hne2]
        | cons a2 pr qr hd =>
            simp only [getPath, lookupKey_setKey_self, hc]
            exact hdiv qr hd
  | absent fs k rest hne hc hrec ih =>
      intro val
      obtain ⟨w2, hset, hget, hdiv⟩ := ih val
      have hab : ∃ a b, rest = a :: b := by
        cases rest with
        | nil => exact absurd rfl hne
        | cons a b => exact ⟨a, b, rfl⟩
      obtain ⟨a, b, hab⟩ := hab
      have hqnil : ∀ qr, Diverge rest qr → getPath (PVal.obj []) qr = none := by
        intro qr hd
        cases hd with
        | head a2 b2 pr2 qr2 hne2 => simp [getPath, lookupKey]
        | cons a2 pr2 qr2 hd2 => simp [getPath, lookupKey]
      refine ⟨PVal.obj (setKey fs k w2), ?_, ?_, ?_⟩
      · subst hab
        simp only [setRec, hc, Option.getD]
        rw [hset]
      · simp only [getPath, lookupKey_setKey_self]
        exact hget
      · intro q hq
        cases hq with
        | head a2 b2 pr qr hne2 =>
            simp only [getPath]
            rw [lookupKey_setKey_ne fs k b2 w2 hne2]
        | cons a2 pr qr hd =>
            simp only [getPath, lookupKey_setKey_self, hc]
            rw [hdiv qr hd, hqnil qr hd]

/-- C6 counterexample.  A nested add whose root field holds a number does not
follow the clone-create-set-validate discipline at all: the final assignment
on the cloned primitive throws (strict mode), so applyPatch produces no
EditResult for the batch. -/
theorem nested_add_on_scalar_faults :
    applyPatch crmSchema (mkMachine crmSchema)
        [⟨OpKind.add, "/days/x", PVal.num 1⟩] Source.llm 0
      = (mkMachine crmSchema, POut.thrown) :=
  rfl

/-- C6 (amended).  For a replace or add operation with a non-empty nested
path on a registered root field, provided the walk from the root's working
value meets only objects or absent segments: the engine's clone-and-set walk
succeeds, the final segment reads back as the assigned value, every path
diverging from the written one reads back unchanged (sibling keys preserved,
missing intermediates created), and the engine then validates the entire
resulting root value — if that validation fails the whole batch stops right
there with the invalid-value failure and the machine untouched, and if it
succeeds the loop continues with only the root's working slot rebound to the
freshly parsed value.  (When the walk meets a primitive instead, the engine
throws; see the counterexample.) -/
theorem nested_write_clone_set_validate (sch : Schema) (work : Work)
    (m : Machine) (kind : OpKind)
    (hk : kind = OpKind.replace ∨ kind = OpKind.add)
    (root : String) (fd : FieldDef) (hreg : sch.lookupField root = some fd)
    (path : String) (p : List String) (hsplit : splitPath path = root :: p)
    (hp : p ≠ []) (ws : WorkSlot) (hws : lookupKey work root = some ws)
    (val : PVal) (hok : SetOk ws.val p) :
    ∃ w, setRec ws.val p val = some w
      ∧ getPath w p = some val
      ∧ (∀ q, Diverge p q → getPath w q = getPath ws.val q)
      ∧ (validate fd.validator w = none →
          ∀ rest, applyOps sch work m (⟨kind, path, val⟩ :: rest)
            = StepRes.exit m (EditResult.failure
                ("Invalid value for " ++ path ++ ": " ++ zodIssueMessage)))
      ∧ (∀ w2, validate fd.validator w = some w2 →
          applyOp sch work m ⟨kind, path, val⟩
            = StepRes.cont (setKey work root ⟨w2, Origin.fresh⟩) m) := by
  obtain ⟨w, hset, hget, hdiv⟩ := setRec_ok ws.val p hok val
  have hab : ∃ a b, p = a :: b := by
    cases p with
    | nil => exact absurd rfl hp
    | cons a b => exact ⟨a, b, rfl⟩
  obtain ⟨a, b, hab⟩ := hab
  have happly : applyOp sch work m ⟨kind, path, val⟩
      = writeNested fd work m root p path val := by
    rcases hk with hk | hk <;> subst hk <;> subst hab <;>
      · unfold applyOp
        simp only [hsplit, hreg]
  refine ⟨w, hset, hget, hdiv, ?_, ?_⟩
  · intro hv rest
    simp only [applyOps, happly]
    simp only [writeNested, hws, Option.getD_some, hset, hv]
  · intro w2 hv
    rw [happly]
    simp only [writeNested, hws, Option.getD_some, hset, hv]

/-- C6 witness: replacing /contact/name by "John" on the demo contact value
rebuilds the object with name set and email and phone preserved, as in the
round-trip example of the specification. -/
theorem nested_write_clone_set_validate_apply :
    ∃ w, setRec (PVal.obj [("name", PVal.str ""), ("email", PVal.str ""),
            ("phone", PVal.str "")]) ["name"] (PVal.str "John") = some w
      ∧ getPath w ["name"] = some (PVal.str "John")
      ∧ getPath w ["email"] = some (PVal.str "")
      ∧ getPath w ["phone"] = some (PVal.str "") := by
  obtain ⟨w, h1, h2, h3, h4, h5⟩ :=
    nested_write_clone_set_validate crmSchema
      [("contact", ⟨PVal.obj [("name", PVal.str ""), ("email", PVal.str ""),
          ("phone", PVal.str "")], Origin.liveAlias⟩)]
      (mkMachine crmSchema) OpKind.replace (Or.inl rfl) "contact"
      ⟨VSchema.vobj [("name", VLeaf.lstr 0), ("email", VLeaf.lstr 0),
          ("phone", VLeaf.lstr 0)], "Contact",
        PVal.obj [("name", PVal.str ""), ("email", PVal.str ""),
          ("phone", PVal.str "")]⟩ rfl
      "/contact/name" ["name"] rfl (by simp)
      ⟨PVal.obj [("name", PVal.str ""), ("email", PVal.str ""),
          ("phone", PVal.str "")], Origin.liveAlias⟩ rfl
      (PVal.str "John") (SetOk.last _ "name")
  refine ⟨w, h1, h2, ?_, ?_⟩
  · have hq := h3 ["email"] (Diverge.head "name" "email" [] [] (by decide))
    rw [hq]
    rfl
  · have hq := h3 ["phone"] (Diverge.head "name" "phone" [] [] (by decide))
    rw [hq]
    rfl

end Duet
